import Mathlib

/-!
Verification of the blog renderer (`src/main.rs`, `src/codeblocks.rs`).

The Rust source is shallowly embedded: the lazy `pulldown_cmark` event
stream is a `List Event`, the `CodeblockRenderer` iterator adapter is a
recursive function over that list, directory state is passed explicitly
(an `Option` models a failed `read_dir`), and the external collaborators
(syntect's syntax lookup and highlighter, the markdown parser, the Tera
template engine) are oracle parameters, since the code under
verification relies only on their interface behaviour.
-/

namespace Blog

/-! ### HTML escaping

Models `pulldown_cmark_escape::escape_html` (called at
`codeblocks.rs:48`), which replaces the four characters lt, gt, amp and
double-quote by their named entities and leaves every other character
untouched. -/

def escapeChar (c : Char) : List Char :=
  if c = '<' then [ '&', 'l', 't', ';' ]
  else if c = '>' then [ '&', 'g', 't', ';' ]
  else if c = '&' then [ '&', 'a', 'm', 'p', ';' ]
  else if c = '"' then [ '&', 'q', 'u', 'o', 't', ';' ]
  else [c]

def escapeList : List Char → List Char
  | [] => []
  | c :: rest => escapeChar c ++ escapeList rest

def escapeHtml (s : String) : String :=
  String.mk (escapeList s.data)

/-- Decoder for the named entities produced by `escapeChar`; every other
character is copied through.  The source has no unescaper: this is the
specification-side inverse that the round-trip claim quantifies over. -/
def unescapeList : List Char → List Char
  | '&' :: 'l' :: 't' :: ';' :: rest => '<' :: unescapeList rest
  | '&' :: 'g' :: 't' :: ';' :: rest => '>' :: unescapeList rest
  | '&' :: 'a' :: 'm' :: 'p' :: ';' :: rest => '&' :: unescapeList rest
  | '&' :: 'q' :: 'u' :: 'o' :: 't' :: ';' :: rest => '"' :: unescapeList rest
  | c :: rest => c :: unescapeList rest
  | [] => []

def unescapeHtml (s : String) : String :=
  String.mk (unescapeList s.data)

theorem unescapeList_cons_ne (c : Char) (l : List Char) (h : c ≠ '&') :
    unescapeList (c :: l) = c :: unescapeList l :=
  unescapeList.eq_5 c l (fun _ hc _ => h hc) (fun _ hc _ => h hc)
    (fun _ hc _ => h hc) (fun _ hc _ => h hc)

theorem unescapeList_escapeList : ∀ cs : List Char, unescapeList (escapeList cs) = cs
  | [] => rfl
  | c :: rest => by
    have ih := unescapeList_escapeList rest
    show unescapeList (escapeChar c ++ escapeList rest) = c :: rest
    by_cases h1 : c = '<'
    · subst h1
      show '<' :: unescapeList (escapeList rest) = '<' :: rest
      rw [ih]
    · by_cases h2 : c = '>'
      · subst h2
        show '>' :: unescapeList (escapeList rest) = '>' :: rest
        rw [ih]
      · by_cases h3 : c = '&'
        · subst h3
          show '&' :: unescapeList (escapeList rest) = '&' :: rest
          rw [ih]
        · by_cases h4 : c = '"'
          · subst h4
            show '"' :: unescapeList (escapeList rest) = '"' :: rest
            rw [ih]
          · have he : escapeChar c ++ escapeList rest = c :: escapeList rest := by
              simp [escapeChar, h1, h2, h3, h4]
            rw [he, unescapeList_cons_ne c _ h3, ih]

theorem unescapeHtml_escapeHtml (s : String) : unescapeHtml (escapeHtml s) = s := by
  show String.mk (unescapeList (escapeList s.data)) = s
  rw [unescapeList_escapeList]

/-! ### The markdown event stream

`pulldown_cmark::Event` restricted to the shapes the interception layer
distinguishes (`codeblocks.rs:26-37`): code-block start tags,
code-block end tags, text, emitted HTML; every other event is opaque
(`other`). -/

inductive CodeBlockKind where
  | indented
  | fenced (language : String)
  deriving DecidableEq

inductive Event where
  | startCodeBlock (kind : CodeBlockKind)
  | endCodeBlock
  | text (s : String)
  | html (s : String)
  | other (id : Nat)
  deriving DecidableEq

/-- Language token selection, `codeblocks.rs:40-43`. -/
def langOf : CodeBlockKind → String
  | .indented => "text"
  | .fenced language => language

def isStartCB : Event → Bool
  | .startCodeBlock _ => true
  | _ => false

/-- Models `rendered_html.replace("<pre", &format!("<pre data-code=\x7b\x7d", escaped_code))`
(`codeblocks.rs:50-51`): every occurrence of the four characters
`<pre` is replaced, left to right and without overlap, by
`<pre data-code="` followed by the escaped code and a closing quote,
exactly as Rust's `str::replace` does for this pattern. -/
def splicePreList (attr : List Char) : List Char → List Char
  | '<' :: 'p' :: 'r' :: 'e' :: rest =>
      '<' :: 'p' :: 'r' :: 'e' :: ' ' :: 'd' :: 'a' :: 't' :: 'a' :: '-' ::
        'c' :: 'o' :: 'd' :: 'e' :: '=' :: '"' :: (attr ++ '"' :: splicePreList attr rest)
  | c :: rest => c :: splicePreList attr rest
  | [] => []

def spliceDataCode (renderedHtml code : String) : String :=
  String.mk (splicePreList (escapeList code.data) renderedHtml.data)

/-- Models `render_code_to_html` (`codeblocks.rs:57-66`).  The syntect
collaborators are oracles: `findSyn` is `find_syntax_by_token` (already
case-insensitive and alias-aware inside syntect), `plainTextSyn` is
`find_syntax_plain_text()` (total, always succeeds), and `highlight` is
`highlighted_html_for_string` with the fixed theme applied. -/
def render_code_to_html {S E : Type} (findSyn : String → Option S) (plainTextSyn : S)
    (highlight : String → S → Except E String) (code lang : String) : String :=
  match highlight code ((findSyn lang).getD plainTextSyn) with
  | .ok h => h
  | .error _ => "<pre><code>" ++ code ++ "</code></pre>"

/-- Models the `while let` accumulation loop of `CodeblockRenderer::next`
(`codeblocks.rs:30-38`): concatenates interior text events until the
first code-block end event (or the end of the stream) and returns the
buffer together with the remaining events. -/
def accumulate : List Event → String × List Event
  | [] => ("", [])
  | .endCodeBlock :: rest => ("", rest)
  | .text s :: rest => (s ++ (accumulate rest).1, (accumulate rest).2)
  | .startCodeBlock _ :: rest => accumulate rest
  | .html _ :: rest => accumulate rest
  | .other _ :: rest => accumulate rest

theorem accumulate_length : ∀ l : List Event, (accumulate l).2.length ≤ l.length
  | [] => Nat.le_refl _
  | .endCodeBlock :: _ => Nat.le_succ _
  | .text _ :: rest => Nat.le_succ_of_le (accumulate_length rest)
  | .startCodeBlock _ :: rest => Nat.le_succ_of_le (accumulate_length rest)
  | .html _ :: rest => Nat.le_succ_of_le (accumulate_length rest)
  | .other _ :: rest => Nat.le_succ_of_le (accumulate_length rest)

/-- Models driving the `CodeblockRenderer` iterator (`codeblocks.rs:22-54`)
to exhaustion: non-code events pass through; a code-block start consumes
events via `accumulate`, renders the buffer with the highlighter `rc`,
splices the escaped buffer as a `data-code` attribute and emits the
result as a single HTML event. -/
def runRenderer (rc : String → String → String) : List Event → List Event
  | [] => []
  | .startCodeBlock kind :: rest =>
      .html (spliceDataCode (rc (accumulate rest).1 (langOf kind)) (accumulate rest).1)
        :: runRenderer rc (accumulate rest).2
  | e :: rest => e :: runRenderer rc rest
termination_by l => l.length
decreasing_by
  · exact Nat.lt_succ_of_le (accumulate_length rest)
  · simp

/-- Concatenation of a list of text payloads, in stream order. -/
def concatTexts : List String → String
  | [] => ""
  | s :: rest => s ++ concatTexts rest

/-- The text accumulated by the `while let` loop when the stream ends
before a code-block end event: the concatenation of all text payloads. -/
def textConcat : List Event → String
  | [] => ""
  | .text s :: rest => s ++ textConcat rest
  | .startCodeBlock _ :: rest => textConcat rest
  | .endCodeBlock :: rest => textConcat rest
  | .html _ :: rest => textConcat rest
  | .other _ :: rest => textConcat rest

theorem accumulate_texts (texts : List String) (rest : List Event) :
    accumulate (texts.map Event.text ++ Event.endCodeBlock :: rest)
      = (concatTexts texts, rest) := by
  induction texts with
  | nil => simp [accumulate, concatTexts]
  | cons s t ih => simp [accumulate, concatTexts, ih]

theorem accumulate_no_end (l : List Event) (h : ∀ e ∈ l, e ≠ Event.endCodeBlock) :
    accumulate l = (textConcat l, []) := by
  induction l with
  | nil => rfl
  | cons e t ih =>
    have ht : ∀ x ∈ t, x ≠ Event.endCodeBlock := fun x hx => h x (List.mem_cons_of_mem _ hx)
    cases e with
    | endCodeBlock => exact absurd rfl (h _ (List.mem_cons_self _ _))
    | text s => simp [accumulate, textConcat, ih ht]
    | startCodeBlock k => simp [accumulate, textConcat, ih ht]
    | html s => simp [accumulate, textConcat, ih ht]
    | other n => simp [accumulate, textConcat, ih ht]

theorem runRenderer_pass (rc : String → String → String) (e : Event) (rest : List Event)
    (h : isStartCB e = false) :
    runRenderer rc (e :: rest) = e :: runRenderer rc rest := by
  apply runRenderer.eq_3
  intro kind hk
  subst hk
  simp [isStartCB] at h

theorem runRenderer_append_pass (rc : String → String → String) (pre rest : List Event)
    (h : ∀ e ∈ pre, isStartCB e = false) :
    runRenderer rc (pre ++ rest) = pre ++ runRenderer rc rest := by
  induction pre with
  | nil => simp
  | cons e t ih =>
    have he := h e (List.mem_cons_self e t)
    have ht : ∀ x ∈ t, isStartCB x = false := fun x hx => h x (List.mem_cons_of_mem _ hx)
    simp only [List.cons_append]
    rw [runRenderer_pass rc e _ he, ih ht]

/-! ### A stable sort

`Vec::sort` and `Vec::sort_by` in Rust are stable sorts.  They are
modelled by insertion sort processing the vector left to right, each
element placed after all its `le`-equals: for a total `le` this agrees
extensionally with every stable sort. -/

def insertStable {α : Type} (le : α → α → Bool) (a : α) : List α → List α
  | [] => [a]
  | b :: l => if le b a then b :: insertStable le a l else a :: b :: l

def sortByStable {α : Type} (le : α → α → Bool) (l : List α) : List α :=
  l.foldl (fun acc a => insertStable le a acc) []

theorem mem_insertStable {α : Type} {le : α → α → Bool} {a x : α} :
    ∀ {l : List α}, x ∈ insertStable le a l → x = a ∨ x ∈ l := by
  intro l
  induction l with
  | nil =>
    intro h
    simp [insertStable] at h
    exact Or.inl h
  | cons b t ih =>
    intro h
    by_cases hb : le b a = true
    · simp only [insertStable, hb, if_true, List.mem_cons] at h
      rcases h with h | h
      · exact Or.inr (by simp [h])
      · rcases ih h with h1 | h1
        · exact Or.inl h1
        · exact Or.inr (by simp [h1])
    · simp only [insertStable, hb, if_false, Bool.false_eq_true, List.mem_cons] at h
      rcases h with h | h
      · exact Or.inl h
      · exact Or.inr (by simpa using h)

theorem pairwise_insertStable {α : Type} {le : α → α → Bool}
    (htot : ∀ a b, le a b = true ∨ le b a = true)
    (htrans : ∀ a b c, le a b = true → le b c = true → le a c = true)
    (a : α) {l : List α} (h : l.Pairwise (fun x y => le x y = true)) :
    (insertStable le a l).Pairwise (fun x y => le x y = true) := by
  induction l with
  | nil => simp [insertStable]
  | cons b t ih =>
    rcases List.pairwise_cons.mp h with ⟨hb_all, ht⟩
    by_cases hb : le b a = true
    · simp only [insertStable, hb, if_true]
      refine List.pairwise_cons.mpr ⟨?_, ih ht⟩
      intro y hy
      rcases mem_insertStable hy with rfl | hy1
      · exact hb
      · exact hb_all y hy1
    · simp only [insertStable, hb, if_false, Bool.false_eq_true]
      refine List.pairwise_cons.mpr ⟨?_, h⟩
      intro y hy
      rcases List.mem_cons.mp hy with rfl | hy1
      · rcases htot a y with h1 | h1
        · exact h1
        · exact absurd h1 hb
      · rcases htot a b with h1 | h1
        · exact htrans a b y h1 (hb_all y hy1)
        · exact absurd h1 hb

theorem pairwise_sortByStable {α : Type} {le : α → α → Bool}
    (htot : ∀ a b, le a b = true ∨ le b a = true)
    (htrans : ∀ a b c, le a b = true → le b c = true → le a c = true)
    (l : List α) :
    (sortByStable le l).Pairwise (fun x y => le x y = true) := by
  suffices h : ∀ acc : List α, acc.Pairwise (fun x y => le x y = true) →
      (List.foldl (fun acc a => insertStable le a acc) acc l).Pairwise
        (fun x y => le x y = true) from h [] (by simp)
  induction l with
  | nil => intro acc h; simpa using h
  | cons x t ih =>
    intro acc h
    exact ih _ (pairwise_insertStable htot htrans x h)

theorem filter_insertStable_neg {α : Type} {le : α → α → Bool} {p : α → Bool} {a : α}
    (hp : p a = false) :
    ∀ l : List α, (insertStable le a l).filter p = l.filter p := by
  intro l
  induction l with
  | nil => simp [insertStable, hp]
  | cons b t ih =>
    by_cases hb : le b a = true
    · simp only [insertStable, hb, if_true, List.filter_cons, ih]
    · simp only [insertStable, hb, if_false, Bool.false_eq_true, List.filter_cons, hp]

theorem filter_insertStable_pos {α : Type} {le : α → α → Bool} {p : α → Bool} {a : α}
    (htrans : ∀ a b c, le a b = true → le b c = true → le a c = true)
    (hp : p a = true)
    (hall : ∀ b, p b = true → le b a = true) :
    ∀ l : List α, l.Pairwise (fun x y => le x y = true) →
      (insertStable le a l).filter p = l.filter p ++ [a] := by
  intro l
  induction l with
  | nil => intro _; simp [insertStable, hp]
  | cons b t ih =>
    intro hsort
    rcases List.pairwise_cons.mp hsort with ⟨hb_all, ht⟩
    by_cases hb : le b a = true
    · simp only [insertStable, hb, if_true, List.filter_cons, ih ht]
      by_cases hpb : p b = true
      · simp [hpb]
      · simp [hpb]
    · simp only [insertStable, hb, if_false, Bool.false_eq_true, List.filter_cons, hp]
      have hpb : ¬ p b = true := fun hpb => hb (hall b hpb)
      have hfilt : t.filter p = [] := by
        refine List.filter_eq_nil_iff.mpr ?_
        intro y hy hpy
        exact hb (htrans b y a (hb_all y hy) (hall y hpy))
      simp [hpb, hfilt]

theorem filter_sortByStable {α : Type} {le : α → α → Bool} {p : α → Bool}
    (htot : ∀ a b, le a b = true ∨ le b a = true)
    (htrans : ∀ a b c, le a b = true → le b c = true → le a c = true)
    (hEquiv : ∀ a b, p a = true → p b = true → le b a = true) (l : List α) :
    (sortByStable le l).filter p = l.filter p := by
  suffices h : ∀ acc : List α, acc.Pairwise (fun x y => le x y = true) →
      (List.foldl (fun acc a => insertStable le a acc) acc l).filter p
        = acc.filter p ++ l.filter p from by simpa using h [] (by simp)
  induction l with
  | nil => intro acc _; simp
  | cons x t ih =>
    intro acc hacc
    show (List.foldl (fun acc a => insertStable le a acc) (insertStable le x acc) t).filter p
      = acc.filter p ++ (x :: t).filter p
    rw [ih (insertStable le x acc) (pairwise_insertStable htot htrans x hacc)]
    by_cases hx : p x = true
    · rw [filter_insertStable_pos htrans hx (fun b hb => hEquiv x b hx hb) acc hacc]
      simp [List.filter_cons, hx]
    · rw [filter_insertStable_neg (by simpa using hx) acc]
      simp [List.filter_cons, hx]

/-! ### File names: extension, timestamp, title -/

/-- The split of a file name at its last dot: `some (p, s)` when the
name is `p`, a dot, then the dot-free `s`. -/
def lastDotSplit : List Char → Option (List Char × List Char)
  | [] => none
  | c :: rest =>
    match lastDotSplit rest with
    | some (p, s) => some (c :: p, s)
    | none => if c = '.' then some ([], rest) else none

/-- Models `std::path::Path::extension` on a plain file name: the part
after the last dot; `none` when there is no dot or when the only dot is
the leading character (a hidden file like `.md` has no extension). -/
def pathExtension (name : String) : Option String :=
  match lastDotSplit name.data with
  | some ([], _) => none
  | some (_, s) => some (String.mk s)
  | none => none

/-- Models `str::split_once(delim)`: splits at the first occurrence of
the delimiter, `none` when the delimiter is absent. -/
def splitOnceAt (delim : Char) : List Char → Option (List Char × List Char)
  | [] => none
  | c :: rest =>
    if c = delim then some ([], rest)
    else (splitOnceAt delim rest).map (fun p => (c :: p.1, p.2))

/-- Timestamp derivation of `get_summary_data` (`main.rs:170-174`):
after the first `@` of the filename, the text up to the first dot of
the remainder (`split('.').next()` is the first split segment, always
present); the fixed sentinel when the filename has no `@`. -/
def datetimeOf (filename : String) : String :=
  match splitOnceAt '@' filename.data with
  | some (_, rest) => String.mk (rest.takeWhile (fun c => c != '.'))
  | none => "Invalid Date"

/-- Leading heading markers stripped by `line.trim_start_matches('#')`
(`main.rs:163`). -/
def dropHashes : List Char → List Char
  | '#' :: rest => dropHashes rest
  | cs => cs

/-! ### The listing builder -/

structure Page where
  filename : String
  title : String
  datetime : String
  deriving DecidableEq

/-- A directory entry as `get_summary_data` observes it: the file name,
and the first line of the file or `none` when opening or reading the
file fails (both failure arms at `main.rs:159-168` fall back to the
file name as title). -/
structure DirEntry where
  filename : String
  firstLine : Option String
  deriving DecidableEq

/-- Models `str::trim`: drops leading and trailing whitespace. -/
def trimList (cs : List Char) : List Char :=
  ((cs.dropWhile Char.isWhitespace).reverse.dropWhile Char.isWhitespace).reverse

def titleOf (e : DirEntry) : String :=
  match e.firstLine with
  | some line => String.mk (trimList (dropHashes line.data))
  | none => e.filename

/-- One iteration of the `while let` entry loop of `get_summary_data`
(`main.rs:150-181`): skip entries without the `md` extension, otherwise
build the page record. -/
def pageOf (e : DirEntry) : Option Page :=
  if pathExtension e.filename = some ("md") then
    some ⟨e.filename, titleOf e, datetimeOf e.filename⟩
  else none

/-- Lexicographic comparison of strings by code point.  Rust orders
`String`s by their UTF-8 bytes, and UTF-8 byte order coincides with
code point order, so this is the order used by `files.sort()`
(`main.rs:362`) and by `String::cmp` on timestamps (`main.rs:183`). -/
def lexLe : List Char → List Char → Bool
  | [], _ => true
  | _ :: _, [] => false
  | a :: as, b :: bs => if a = b then lexLe as bs else decide (a < b)

theorem lexLe_refl : ∀ l : List Char, lexLe l l = true
  | [] => rfl
  | a :: as => by simp [lexLe, lexLe_refl as]

theorem lexLe_total : ∀ x y : List Char, lexLe x y = true ∨ lexLe y x = true
  | [], _ => Or.inl rfl
  | _ :: _, [] => Or.inr rfl
  | a :: as, b :: bs => by
    by_cases hab : a = b
    · subst hab
      simpa [lexLe] using lexLe_total as bs
    · rcases lt_trichotomy a b with h | h | h
      · exact Or.inl (by simp [lexLe, hab, h])
      · exact absurd h hab
      · have hba : b ≠ a := fun e => hab e.symm
        exact Or.inr (by simp [lexLe, hba, h])

theorem lexLe_trans : ∀ x y z : List Char,
    lexLe x y = true → lexLe y z = true → lexLe x z = true
  | [], _, _, _, _ => rfl
  | _ :: _, [], _, hxy, _ => by simp [lexLe] at hxy
  | _ :: _, _ :: _, [], _, hyz => by simp [lexLe] at hyz
  | a :: as, b :: bs, c :: cs, hxy, hyz => by
    by_cases hab : a = b
    · subst hab
      by_cases hac : a = c
      · subst hac
        simp only [lexLe, if_pos rfl] at hxy hyz ⊢
        exact lexLe_trans as bs cs hxy hyz
      · simp only [lexLe, if_pos rfl] at hxy
        simp only [lexLe, if_neg hac] at hyz ⊢
        exact hyz
    · by_cases hbc : b = c
      · subst hbc
        simp only [lexLe, if_neg hab] at hxy ⊢
        exact hxy
      · have h1 : a < b := of_decide_eq_true (by simpa [lexLe, hab] using hxy)
        have h2 : b < c := of_decide_eq_true (by simpa [lexLe, hbc] using hyz)
        have hac : a ≠ c := by
          intro e
          subst e
          exact absurd (lt_trans h1 h2) (lt_irrefl a)
        simp [lexLe, hac, lt_trans h1 h2]

/-- The comparator `|a, b| b.datetime.cmp(&a.datetime)` of `main.rs:183`
as a boolean total order: descending by timestamp string. -/
def pageLe (a b : Page) : Bool :=
  lexLe b.datetime.data a.datetime.data

/-- Models `get_summary_data` (`main.rs:147-185`).  The argument is the
outcome of `read_dir`: `none` when the directory cannot be read (the
`if let Ok` then contributes no entries), otherwise the entries in
directory enumeration order. -/
def get_summary_data (dirRead : Option (List DirEntry)) : List Page :=
  sortByStable pageLe ((dirRead.getD []).filterMap pageOf)

/-! ### The navigation resolver -/

/-- The filename filter of `get_nav_links` (`main.rs:352-360`): markdown
files except the reserved `SUMMARY.md` index document. -/
def isNavFile (f : String) : Bool :=
  decide (pathExtension f = some ("md")) && decide (f ≠ ("SUMMARY.md"))

def strLe (a b : String) : Bool :=
  lexLe a.data b.data

/-- The filtered, lexicographically sorted sibling list (`files` after
`files.sort()` at `main.rs:350-362`). -/
def navFiles (entries : List String) : List String :=
  sortByStable strLe (entries.filter isNavFile)

/-- Models `get_nav_links` (`main.rs:349-376`) after a successful
directory read: the current file's position in the sorted sibling list;
`"."` is the index sentinel for position 0, neighbours are taken with
`Vec::get`. -/
def get_nav_links (entries : List String) (current : String) : Option String × Option String :=
  match (navFiles entries).findIdx? (fun f => f == current) with
  | some i =>
      (if i = 0 then some (".") else (navFiles entries)[i - 1]?, (navFiles entries)[i + 1]?)
  | none => (none, none)

/-- Models the `.unwrap()` on `read_dir` at `main.rs:350-351`: a failed
directory read makes `get_nav_links` panic, aborting the surrounding
render; the panic is the `none` outcome. -/
def get_nav_links_run (dirRead : Option (List String)) (current : String) :
    Option (Option String × Option String) :=
  match dirRead with
  | none => none
  | some entries => some (get_nav_links entries current)

/-! ### Page assembly -/

/-- Models `s.replace(".md", ".html")` (`main.rs:219` and `main.rs:222`):
every occurrence of `.md`, left to right, non-overlapping, becomes
`.html`, exactly as Rust's `str::replace` does for this pattern. -/
def replaceMdHtmlList : List Char → List Char
  | '.' :: 'm' :: 'd' :: rest => '.' :: 'h' :: 't' :: 'm' :: 'l' :: replaceMdHtmlList rest
  | c :: rest => c :: replaceMdHtmlList rest
  | [] => []

def replaceMdHtml (s : String) : String :=
  String.mk (replaceMdHtmlList s.data)

/-- The static-mode link rewrite of `render_markdown_to_html`
(`main.rs:214-223`): the `"."` sentinel becomes the generated index
file name, and sibling links get the `.md` → `.html` rewrite. -/
def staticRewritePair (p : Option String × Option String) : Option String × Option String :=
  (p.1.map (fun s => if s = "." then ("index.html" : String) else replaceMdHtml s),
   p.2.map replaceMdHtml)

/-- The navigation pair a render uses (`main.rs:207-223`): the resolver
is skipped entirely when navigation is disabled, and static mode
applies the link rewrite on top of the same adjacency decision. -/
def navPair (entries : List String) (filename : String)
    (no_navigation is_static : Bool) : Option String × Option String :=
  let p := if no_navigation then (none, none) else get_nav_links entries filename
  if is_static then staticRewritePair p else p

/-- The template context built at `main.rs:225-231`. -/
structure RenderContext where
  title : String
  content : String
  prev_page : Option String
  next_page : Option String
  no_navigation : Bool
  is_static : Bool
  deriving DecidableEq

/-- The body construction and template substitution of
`render_markdown_to_html` (`main.rs:202-236`) given an already computed
navigation pair.  `rc` is the code highlighter, `pushHtml` the external
`html::push_html` serializer, `renderTemplate` the external Tera
rendering of `page.html`; a template failure is absorbed into visible
error text (`main.rs:235`). -/
def assemblePage (rc : String → String → String) (pushHtml : List Event → String)
    (renderTemplate : RenderContext → Except String String)
    (events : List Event) (filename : String) (p : Option String × Option String)
    (no_navigation is_static : Bool) : String :=
  match renderTemplate
      ⟨filename, pushHtml (runRenderer rc events), p.1, p.2, no_navigation, is_static⟩ with
  | .ok s => s
  | .error e => "Error: " ++ e

/-- Models `render_markdown_to_html` (`main.rs:187-236`).  `parse` is
the external pulldown-cmark parser with the fixed option set
(tables, footnotes, strikethrough, task lists). -/
def render_markdown_to_html (parse : String → List Event) (rc : String → String → String)
    (pushHtml : List Event → String) (renderTemplate : RenderContext → Except String String)
    (content filename : String) (entries : List String)
    (no_navigation is_static : Bool) : String :=
  assemblePage rc pushHtml renderTemplate (parse content) filename
    (navPair entries filename no_navigation is_static) no_navigation is_static

/-- `render_markdown_to_html` with the panic of `get_nav_links` made
explicit: `none` exactly when the resolver is invoked and the directory
read fails. -/
def render_markdown_to_html_run (parse : String → List Event) (rc : String → String → String)
    (pushHtml : List Event → String) (renderTemplate : RenderContext → Except String String)
    (content filename : String) (dirRead : Option (List String))
    (no_navigation is_static : Bool) : Option String :=
  match (if no_navigation then some ((none, none) : Option String × Option String)
         else get_nav_links_run dirRead filename) with
  | none => none
  | some p =>
      some (assemblePage rc pushHtml renderTemplate (parse content) filename
        (if is_static then staticRewritePair p else p) no_navigation is_static)

/-- Models `page.ends_with(".md")` (`main.rs:306`). -/
def strEndsWith (s suffix : String) : Bool :=
  decide (suffix.data <:+ s.data)

/-- The filename resolution of `render_page_handler` (`main.rs:306-310`):
append the markup extension when the requested name lacks it. -/
def resolvePageName (page : String) : String :=
  if strEndsWith page (".md") then page else page ++ ".md"

/-- Models `render_page_handler` (`main.rs:302-326`): resolve the
requested name, read the file (`docs` maps filenames to contents), and
render in serving mode, or answer the fixed not-found page. -/
def render_page_handler (parse : String → List Event) (rc : String → String → String)
    (pushHtml : List Event → String) (renderTemplate : RenderContext → Except String String)
    (docs : String → Option String) (entries : List String) (no_navigation : Bool)
    (page : String) : String :=
  match docs (resolvePageName page) with
  | some content =>
      render_markdown_to_html parse rc pushHtml renderTemplate content
        (resolvePageName page) entries no_navigation false
  | none => "<h1>404</h1><p>Page not found</p>"

/-! ## The claims -/

/-- C1, amended.  As stated the claim is false (see `c1_counterexample`):
for every event sequence in which a code-block start is never followed
by a matching end (the upstream ends first), the interception layer
completes without crashing and the wrapped sequence ends — but the
accumulated buffer is not discarded: it is highlighted and emitted as
one final top-level HTML event. -/
theorem c1_unterminated_block_emits (rc : String → String → String)
    (pre : List Event) (kind : CodeBlockKind) (interior : List Event)
    (hpre : ∀ e ∈ pre, isStartCB e = false)
    (hNoEnd : ∀ e ∈ interior, e ≠ Event.endCodeBlock) :
    runRenderer rc (pre ++ Event.startCodeBlock kind :: interior)
      = pre ++ [Event.html (spliceDataCode (rc (textConcat interior) (langOf kind))
          (textConcat interior))] := by
  rw [runRenderer_append_pass rc pre _ hpre]
  simp only [runRenderer, accumulate_no_end interior hNoEnd]

theorem c1_unterminated_block_emits_witness :
    runRenderer (fun code _ => code)
        [Event.text ("p"), Event.startCodeBlock CodeBlockKind.indented, Event.text ("abc")]
      = [Event.text ("p"), Event.html (spliceDataCode ("abc") ("abc"))] :=
  c1_unterminated_block_emits (fun code _ => code) [Event.text ("p")]
    CodeBlockKind.indented [Event.text ("abc")] (by decide) (by decide)

/-- C1 as written is refuted at a concrete input: the upstream ends
inside a fenced block, yet the partial content appears in a new
top-level HTML event instead of being discarded. -/
theorem c1_counterexample :
    runRenderer
        (render_code_to_html (fun _ => (none : Option Unit)) ()
          (fun _ _ => (Except.error () : Except Unit String)))
        [Event.startCodeBlock (CodeBlockKind.fenced ("x")), Event.text ("hello")]
      = [Event.html ("<pre data-code=\"hello\"><code>hello</code></pre>")]
    ∧ runRenderer
        (render_code_to_html (fun _ => (none : Option Unit)) ()
          (fun _ _ => (Except.error () : Except Unit String)))
        [Event.startCodeBlock (CodeBlockKind.fenced ("x")), Event.text ("hello")] ≠ [] := by
  constructor
  · simp only [runRenderer, accumulate]
    decide
  · simp only [runRenderer, accumulate]
    decide

/-- C2: for every well-formed fenced code block (start event, interior
text events, matching end event) the interception layer emits a single
HTML event whose `data-code` attribute value is the HTML-escaped
concatenation of the interior text events, and HTML-unescaping that
value recovers the original code text byte for byte; the third conjunct
shows the attribute splice on a concrete highlighter output. -/
theorem c2_data_code_round_trip (rc : String → String → String) (kind : CodeBlockKind)
    (texts : List String) (rest : List Event) :
    runRenderer rc
        (Event.startCodeBlock kind :: (texts.map Event.text ++ Event.endCodeBlock :: rest))
      = Event.html (spliceDataCode (rc (concatTexts texts) (langOf kind)) (concatTexts texts))
          :: runRenderer rc rest
    ∧ unescapeHtml (escapeHtml (concatTexts texts)) = concatTexts texts
    ∧ spliceDataCode ("<pre class=\"z\">y</pre>") ("a<b")
        = "<pre data-code=\"a&lt;b\" class=\"z\">y</pre>" := by
  refine ⟨?_, unescapeHtml_escapeHtml _, by decide⟩
  simp [runRenderer, accumulate_texts]

/-- C3, amended.  As stated the claim is false (see `c3_counterexample`):
the highlighter is total — for every oracle behaviour it returns a
string.  An unknown language token falls back to the plain-text syntax
definition, and an internal highlighting failure yields the
`<pre><code>…</code></pre>` wrapper containing the literal (unescaped,
not HTML-escaped) original code text. -/
theorem c3_render_code_total {S E : Type} (findSyn : String → Option S) (plainTextSyn : S)
    (highlight : String → S → Except E String) (code lang : String) :
    (findSyn lang = none →
      render_code_to_html findSyn plainTextSyn highlight code lang
        = match highlight code plainTextSyn with
          | .ok h => h
          | .error _ => "<pre><code>" ++ code ++ "</code></pre>") ∧
    (∀ e, highlight code ((findSyn lang).getD plainTextSyn) = Except.error e →
      render_code_to_html findSyn plainTextSyn highlight code lang
        = "<pre><code>" ++ code ++ "</code></pre>") ∧
    (∀ h, highlight code ((findSyn lang).getD plainTextSyn) = Except.ok h →
      render_code_to_html findSyn plainTextSyn highlight code lang = h) := by
  refine ⟨?_, ?_, ?_⟩
  · intro hnone
    simp [render_code_to_html, hnone]
  · intro e he
    simp [render_code_to_html, he]
  · intro h hh
    simp [render_code_to_html, hh]

theorem c3_render_code_total_witness :
    render_code_to_html (fun _ => (none : Option Unit)) ()
        (fun _ _ => (Except.error () : Except Unit String)) ("a") ("nonexistentlang123")
      = "<pre><code>a</code></pre>" :=
  (c3_render_code_total (fun _ => none) () (fun _ _ => Except.error ())
    ("a") ("nonexistentlang123")).2.1 () rfl

/-- C3 as written is refuted at a concrete input: on an internal
highlighting failure the wrapper contains the literal code text, which
differs from the HTML-escaped text the claim requires. -/
theorem c3_counterexample :
    render_code_to_html (fun _ => (none : Option Unit)) ()
        (fun _ _ => (Except.error () : Except Unit String)) ("<b>") ("nonexistentlang123")
      = "<pre><code><b></code></pre>"
    ∧ ("<pre><code><b></code></pre>" : String)
        ≠ "<pre><code>" ++ escapeHtml ("<b>") ++ "</code></pre>" := by
  constructor
  · rfl
  · decide

/-- The three documents of the worked example in the spec. -/
def fileA : String := "a@2024-01-01.md"

def fileB : String := "b@2024-06-01.md"

def fileC : String := "c@2024-03-01.md"

theorem findIdx_beq_append_cons (c : String) (post : List String) :
    ∀ pre : List String, c ∉ pre →
      (pre ++ c :: post).findIdx? (fun f => f == c) = some pre.length
  | [], _ => by simp
  | a :: t, h => by
    have ha : (a == c) = false := by
      simp only [beq_eq_false_iff_ne, ne_eq]
      intro e
      exact h (by simp [e])
    have ht : c ∉ t := fun hm => h (List.mem_cons_of_mem _ hm)
    simp only [List.cons_append, List.findIdx?_cons, ha, Bool.false_eq_true, if_false,
      List.findIdx?_start_succ, findIdx_beq_append_cons c post t ht]
    simp

/-- C4: the resolver keeps the markdown documents minus `SUMMARY.md`,
sorted lexicographically (first conjunct); a current file absent from
that list gives (absent, absent); a current file found after prefix
`pre` gives the index sentinel as previous when `pre` is empty and the
preceding filename otherwise, and the following filename — absent at
the last position — as next; the worked example resolves b to (a, c),
a to (sentinel, b) and c to (b, absent). -/
theorem c4_nav_links (entries : List String) (current : String) :
    (navFiles entries).Pairwise (fun a b => strLe a b = true)
    ∧ (current ∉ navFiles entries → get_nav_links entries current = (none, none))
    ∧ (∀ pre post, navFiles entries = pre ++ current :: post → current ∉ pre →
        get_nav_links entries current
          = (if pre = [] then some (".") else pre.getLast?, post.head?))
    ∧ get_nav_links [fileA, fileB, fileC] fileB = (some fileA, some fileC)
    ∧ get_nav_links [fileA, fileB, fileC] fileA = (some ("."), some fileB)
    ∧ get_nav_links [fileA, fileB, fileC] fileC = (some fileB, none) := by
  refine ⟨?_, ?_, ?_, by decide, by decide, by decide⟩
  · exact pairwise_sortByStable (fun a b : String => lexLe_total a.data b.data)
      (fun (a b c : String) h1 h2 => lexLe_trans a.data b.data c.data h1 h2) _
  · intro h
    have hf : (navFiles entries).findIdx? (fun f => f == current) = none := by
      apply List.findIdx?_eq_none_iff.mpr
      intro x hx
      simp only [beq_eq_false_iff_ne, ne_eq]
      intro e
      subst e
      exact h hx
    simp [get_nav_links, hf]
  · intro pre post heq hnot
    have hf : (navFiles entries).findIdx? (fun f => f == current) = some pre.length := by
      rw [heq]
      exact findIdx_beq_append_cons current post pre hnot
    simp only [get_nav_links, hf, Prod.mk.injEq]
    constructor
    · by_cases hp : pre = []
      · subst hp
        simp
      · have hl : pre.length ≠ 0 := fun e => hp (List.length_eq_zero.mp e)
        rw [if_neg hl, if_neg hp, heq]
        rw [List.getElem?_append, if_pos (by omega)]
        exact (List.getLast?_eq_getElem? pre).symm
    · rw [heq, List.getElem?_append_right (by omega)]
      have : pre.length + 1 - pre.length = 1 := by omega
      rw [this]
      cases post <;> simp

theorem c4_nav_links_witness :
    get_nav_links [fileA, fileB, fileC] fileB
      = (if ([fileA] : List String) = [] then some (".") else [fileA].getLast?, [fileC].head?) :=
  (c4_nav_links [fileA, fileB, fileC] fileB).2.2.1 [fileA] [fileC] (by decide) (by decide)

/-- C5: the adjacency decision is the same in serving and static-export
mode for every directory, current filename and navigation flag — static
mode only rewrites the produced link strings (the sentinel to the
literal generated index filename, sibling filenames `.md` → `.html`),
so each side is present exactly when the other is; concretely the first
page's previous link renders as `index.html` in static mode and as the
sentinel in serving mode. -/
theorem c5_modes_agree (entries : List String) (filename : String) (no_navigation : Bool) :
    (navPair entries filename no_navigation true).1
        = (navPair entries filename no_navigation false).1.map
            (fun s => if s = "." then ("index.html" : String) else replaceMdHtml s)
    ∧ (navPair entries filename no_navigation true).2
        = (navPair entries filename no_navigation false).2.map replaceMdHtml
    ∧ ((navPair entries filename no_navigation true).1.isSome
        = (navPair entries filename no_navigation false).1.isSome)
    ∧ ((navPair entries filename no_navigation true).2.isSome
        = (navPair entries filename no_navigation false).2.isSome)
    ∧ navPair [fileA, fileB, fileC] fileA false true
        = (some ("index.html"), some ("b@2024-06-01.html"))
    ∧ navPair [fileA, fileB, fileC] fileA false false = (some ("."), some fileB) := by
  refine ⟨rfl, rfl, ?_, ?_, by decide, by decide⟩
  · simp [navPair, staticRewritePair]
  · simp [navPair, staticRewritePair]

/-- C6: the listing is sorted by timestamp descending under
lexicographic string comparison (`pageLe`), ties between equal
timestamps keep the original directory enumeration order (the filter of
every timestamp class is unchanged by the sort), and the worked example
lists b, c, a. -/
theorem c6_summary_order (dirRead : Option (List DirEntry)) :
    (get_summary_data dirRead).Pairwise (fun p q => pageLe p q = true)
    ∧ (∀ t, (get_summary_data dirRead).filter (fun p => p.datetime == t)
        = ((dirRead.getD []).filterMap pageOf).filter (fun p => p.datetime == t))
    ∧ (get_summary_data (some [⟨fileA, some ("# A")⟩, ⟨fileB, some ("# B")⟩,
        ⟨fileC, some ("# C")⟩])).map Page.filename = [fileB, fileC, fileA] := by
  have htot : ∀ a b : Page, pageLe a b = true ∨ pageLe b a = true :=
    fun a b => lexLe_total b.datetime.data a.datetime.data
  have htrans : ∀ a b c : Page, pageLe a b = true → pageLe b c = true → pageLe a c = true :=
    fun a b c h1 h2 => lexLe_trans c.datetime.data b.datetime.data a.datetime.data h2 h1
  refine ⟨pairwise_sortByStable htot htrans _, ?_, by decide⟩
  intro t
  apply filter_sortByStable htot htrans
  intro a b ha hb
  have ha1 : a.datetime = t := eq_of_beq ha
  have hb1 : b.datetime = t := eq_of_beq hb
  show lexLe a.datetime.data b.datetime.data = true
  rw [ha1, hb1]
  exact lexLe_refl _

theorem splitOnceAt_of_not_mem {c : Char} : ∀ {cs : List Char}, c ∉ cs →
    splitOnceAt c cs = none := by
  intro cs
  induction cs with
  | nil => intro _; rfl
  | cons a t ih =>
    intro h
    have ha : ¬ (a = c) := fun e => h (by simp [e])
    simp [splitOnceAt, ha, ih (fun hm => h (List.mem_cons_of_mem _ hm))]

theorem splitOnceAt_of_mem {c : Char} : ∀ {cs : List Char}, c ∈ cs →
    splitOnceAt c cs
      = some (cs.takeWhile (fun x => x != c), (cs.dropWhile (fun x => x != c)).drop 1) := by
  intro cs
  induction cs with
  | nil => intro h; exact absurd h (List.not_mem_nil c)
  | cons a t ih =>
    intro h
    by_cases ha : a = c
    · subst ha
      simp [splitOnceAt, List.takeWhile_cons, List.dropWhile_cons]
    · have hmem : c ∈ t := by
        rcases List.mem_cons.mp h with h1 | h1
        · exact absurd h1.symm ha
        · exact h1
      have hne : (a != c) = true := bne_iff_ne.mpr ha
      simp [splitOnceAt, ha, ih hmem, List.takeWhile_cons, List.dropWhile_cons, hne]

/-- The reading of the timestamp rule written in the claim: the
remainder after the delimiter with the extension — everything from the
last dot on — removed. -/
def datetimeUpToExtension (filename : String) : String :=
  match splitOnceAt '@' filename.data with
  | some (_, rest) =>
      String.mk (match lastDotSplit rest with
        | some (p, _) => p
        | none => rest)
  | none => "Invalid Date"

/-- C7, amended.  As stated the claim is false (see `c7_counterexample`):
the timestamp is derived by splitting the filename at the first `@` and
taking the remainder up to its first dot — not up to the extension —
and a filename without the delimiter gets the fixed sentinel
`Invalid Date` instead of failing. -/
theorem c7_datetime (filename : String) :
    ('@' ∈ filename.data →
      (datetimeOf filename).data
        = ((filename.data.dropWhile (fun c => c != '@')).drop 1).takeWhile (fun c => c != '.'))
    ∧ ('@' ∉ filename.data → datetimeOf filename = "Invalid Date")
    ∧ datetimeOf ("a@2024-01-01.md") = "2024-01-01"
    ∧ datetimeOf ("nodate.md") = "Invalid Date" := by
  refine ⟨?_, ?_, by decide, by decide⟩
  · intro h
    unfold datetimeOf
    rw [splitOnceAt_of_mem h]
  · intro h
    unfold datetimeOf
    rw [splitOnceAt_of_not_mem h]

theorem c7_datetime_witness :
    (datetimeOf ("a@2024-01-01.md")).data
      = ((("a@2024-01-01.md" : String).data.dropWhile (fun c => c != '@')).drop 1).takeWhile
          (fun c => c != '.') :=
  (c7_datetime ("a@2024-01-01.md")).1 (by decide)

/-- C7 as written is refuted at a concrete input: for a timestamp part
that itself contains a dot, the code stops at the first dot of the
remainder, not at the extension. -/
theorem c7_counterexample :
    datetimeOf ("x@1.2.md") = "1"
    ∧ datetimeUpToExtension ("x@1.2.md") = "1.2"
    ∧ ("1" : String) ≠ "1.2" := by
  refine ⟨by decide, by decide, by decide⟩

/-- C8: rendering is deterministic.  The embedding of
`render_markdown_to_html` is a pure function of the document text, the
filename, the directory contents and the flags — with the process-wide
collaborators (parser, highlighter, serializer, template engine) fixed
at startup — so two renders with equal parameters are byte-identical. -/
theorem c8_render_deterministic (parse : String → List Event) (rc : String → String → String)
    (pushHtml : List Event → String) (renderTemplate : RenderContext → Except String String)
    (ca cb fa fb : String) (ea eb : List String) (na nb sa sb : Bool)
    (hc : ca = cb) (hf : fa = fb) (he : ea = eb) (hn : na = nb) (hs : sa = sb) :
    render_markdown_to_html parse rc pushHtml renderTemplate ca fa ea na sa
      = render_markdown_to_html parse rc pushHtml renderTemplate cb fb eb nb sb := by
  subst hc
  subst hf
  subst he
  subst hn
  subst hs
  rfl

theorem c8_render_deterministic_witness :
    render_markdown_to_html (fun _ => []) (fun code _ => code) (fun _ => "")
        (fun _ => Except.ok ("x")) ("d") ("f") [] false false
      = render_markdown_to_html (fun _ => []) (fun code _ => code) (fun _ => "")
        (fun _ => Except.ok ("x")) ("d") ("f") [] false false :=
  c8_render_deterministic (fun _ => []) (fun code _ => code) (fun _ => "")
    (fun _ => Except.ok ("x")) ("d") ("d") ("f") ("f") [] [] false false false false
    rfl rfl rfl rfl rfl

/-- C9: a request without the markup extension resolves to exactly the
same filename as the request with it — both become `page.md` — and
hence the page handler renders the same content for `foo` and
`foo.md`. -/
theorem c9_extension_optional (parse : String → List Event) (rc : String → String → String)
    (pushHtml : List Event → String) (renderTemplate : RenderContext → Except String String)
    (docs : String → Option String) (entries : List String) (no_navigation : Bool)
    (page : String) (h : strEndsWith page (".md") = false) :
    resolvePageName page = resolvePageName (page ++ ".md")
    ∧ resolvePageName page = page ++ ".md"
    ∧ render_page_handler parse rc pushHtml renderTemplate docs entries no_navigation page
      = render_page_handler parse rc pushHtml renderTemplate docs entries no_navigation
          (page ++ ".md") := by
  have h2 : strEndsWith (page ++ ".md") (".md") = true := by
    apply decide_eq_true
    rw [String.data_append]
    exact List.suffix_append _ _
  have hr : resolvePageName page = page ++ ".md" := by
    simp [resolvePageName, h]
  have hr2 : resolvePageName (page ++ ".md") = page ++ ".md" := by
    simp [resolvePageName, h2]
  refine ⟨hr.trans hr2.symm, hr, ?_⟩
  simp only [render_page_handler, hr, hr2]

theorem c9_extension_optional_witness :
    resolvePageName ("foo") = resolvePageName ("foo" ++ ".md")
    ∧ resolvePageName ("foo") = "foo" ++ ".md"
    ∧ render_page_handler (fun _ => []) (fun code _ => code) (fun _ => "")
        (fun _ => Except.ok ("x")) (fun _ => none) [] false ("foo")
      = render_page_handler (fun _ => []) (fun code _ => code) (fun _ => "")
        (fun _ => Except.ok ("x")) (fun _ => none) [] false ("foo" ++ ".md") :=
  c9_extension_optional (fun _ => []) (fun code _ => code) (fun _ => "")
    (fun _ => Except.ok ("x")) (fun _ => none) [] false ("foo") (by decide)

/-- C10: a failed directory read makes the navigation resolver panic
(`.unwrap()`), aborting the render that requested navigation — while
the listing builder absorbs the same failure into an empty collection;
with navigation disabled the resolver is never invoked, so the render
survives an unreadable directory. -/
theorem c10_nav_unwrap_panics (current : String) :
    get_nav_links_run none current = none
    ∧ get_summary_data none = []
    ∧ (∀ entries, (get_nav_links_run (some entries) current).isSome = true)
    ∧ (∀ (parse : String → List Event) (rc : String → String → String)
        (pushHtml : List Event → String) (renderTemplate : RenderContext → Except String String)
        (content filename : String) (is_static : Bool),
        render_markdown_to_html_run parse rc pushHtml renderTemplate content filename none
          false is_static = none)
    ∧ (∀ (parse : String → List Event) (rc : String → String → String)
        (pushHtml : List Event → String) (renderTemplate : RenderContext → Except String String)
        (content filename : String) (is_static : Bool),
        (render_markdown_to_html_run parse rc pushHtml renderTemplate content filename none
          true is_static).isSome = true) := by
  refine ⟨rfl, rfl, fun entries => rfl, fun _ _ _ _ _ _ _ => rfl, fun _ _ _ _ _ _ _ => rfl⟩

end Blog
